import Mathlib

set_option maxHeartbeats 1000000

/-!
Shallow embedding of the chat message content segmenter and the send-message
state transition from `src/src/app/components/Header.tsx`.

Strings are modelled as `List Char` (sequences of Unicode scalar values).
JavaScript regular-expression behaviour is embedded operationally:
each regex of the source is translated into an explicit scanning function
with the same matching semantics (anchors, greedy and lazy quantifiers,
case-insensitive flags, and the character classes involved).
-/

/-- JavaScript whitespace (the `\s` class, also used by `String.prototype.trim`). -/
def isJsWs (c : Char) : Bool :=
  c.toNat = 9 || c.toNat = 10 || c.toNat = 11 || c.toNat = 12 || c.toNat = 13 ||
  c.toNat = 32 || c.toNat = 160 || c.toNat = 5760 ||
  (8192 ≤ c.toNat && c.toNat ≤ 8202) || c.toNat = 8232 || c.toNat = 8233 ||
  c.toNat = 8239 || c.toNat = 8287 || c.toNat = 12288 || c.toNat = 65279

/-- JavaScript line terminators (the characters `.` does not match). -/
def isLineTerm (c : Char) : Bool :=
  c.toNat = 10 || c.toNat = 13 || c.toNat = 8232 || c.toNat = 8233

/-- JavaScript `String.prototype.trim`. -/
def jsTrim (cs : List Char) : List Char :=
  ((cs.dropWhile isJsWs).reverse.dropWhile isJsWs).reverse

/-- Case-insensitive match of one pattern character `p` (given in lowercase
ASCII) against an input character, as JavaScript `/i` canonicalisation does it
for ASCII pattern letters: a non-ASCII input character never matches an ASCII
pattern character. -/
def ciEq (p c : Char) : Bool :=
  p = c || (97 ≤ p.toNat && p.toNat ≤ 122 && c.toNat + 32 = p.toNat)

/-- Drop an exact (case-sensitive) prefix, returning the remainder. -/
def dropPrefixEx : List Char → List Char → Option (List Char)
  | [], cs => some cs
  | _ :: _, [] => none
  | p :: ps, c :: cs => if c = p then dropPrefixEx ps cs else none

/-- Drop a case-insensitive prefix (pattern given in lowercase), returning the
remainder. -/
def dropPrefixCI : List Char → List Char → Option (List Char)
  | [], cs => some cs
  | _ :: _, [] => none
  | p :: ps, c :: cs => if ciEq p c then dropPrefixCI ps cs else none

/-- Whole-list case-insensitive comparison against a lowercase pattern. -/
def ciMatch (p cs : List Char) : Bool :=
  match dropPrefixCI p cs with
  | some [] => true
  | _ => false

/-- JavaScript `content.split("\n")`. -/
def splitNl : List Char → List (List Char)
  | [] => [[]]
  | c :: rest =>
    if c = '\n' then [] :: splitNl rest
    else
      match splitNl rest with
      | l :: ls => (c :: l) :: ls
      | [] => [[c]]

/-- Join lines with a newline separator (inverse of `splitNl` on lines that
contain no newline). -/
def joinNl : List (List Char) → List Char
  | [] => []
  | [l] => l
  | l :: ls => l ++ '\n' :: joinNl ls

/-- Matcher for `/^Image URL: (.+)$/i` and `/^Video URL: (.+)$/i`: the pattern
prefix (lowercased) is matched case-insensitively at the start of the line,
then `(.+)` requires a nonempty remainder of non-line-terminator characters,
and `$` requires it to reach the end. Returns the captured group. -/
def matchSentinel (pat line : List Char) : Option (List Char) :=
  match dropPrefixCI pat line with
  | some v => if v ≠ [] ∧ v.all (fun c => !isLineTerm c) then some v else none
  | none => none

/-- The source's `line.match(/^Image URL: (.+)$/i)`. -/
def imageUrlMatch (line : List Char) : Option (List Char) :=
  matchSentinel "image url: ".data line

/-- The source's `line.match(/^Video URL: (.+)$/i)`. -/
def videoUrlMatch (line : List Char) : Option (List Char) :=
  matchSentinel "video url: ".data line

/-- Characters allowed in a YouTube video id (`[a-zA-Z0-9_-]`). -/
def isIdChar (c : Char) : Bool :=
  (97 ≤ c.toNat && c.toNat ≤ 122) || (65 ≤ c.toNat && c.toNat ≤ 90) ||
  (48 ≤ c.toNat && c.toNat ≤ 57) || c = '_' || c = '-'

/-- Attempt one host alternative (`h`) at the current position, then read an
11-character video id. -/
def ytHost (h : List Char) (r : List Char) : Option (List Char) :=
  match dropPrefixEx h r with
  | none => none
  | some r2 =>
    let run := r2.takeWhile isIdChar
    if 11 ≤ run.length then some (run.take 11) else none

/-- Try the three host alternatives of the YouTube regex in order. -/
def ytHosts (r : List Char) : Option (List Char) :=
  (ytHost "youtube.com/watch?v=".data r).orElse fun _ =>
    (ytHost "youtube.com/embed/".data r).orElse fun _ =>
      ytHost "youtu.be/".data r

/-- Match the YouTube pattern
`https?:\/\/(?:www\.)?(?:youtube\.com\/(?:watch\?v=|embed\/)|youtu\.be\/)([a-zA-Z0-9_-]{11})`
at the current position, returning the captured video id. The optional
`(?:www\.)?` group is tried with the prefix first, backtracking to without. -/
def ytAt (cs : List Char) : Option (List Char) :=
  match (dropPrefixEx "https://".data cs).orElse
      (fun _ => dropPrefixEx "http://".data cs) with
  | none => none
  | some r1 =>
    match dropPrefixEx "www.".data r1 with
    | some r1w => (ytHosts r1w).orElse fun _ => ytHosts r1
    | none => ytHosts r1

/-- Unanchored search for the YouTube pattern: leftmost match wins. -/
def ytFind : List Char → Option (List Char)
  | [] => none
  | c :: cs =>
    match ytAt (c :: cs) with
    | some v => some v
    | none => ytFind cs

/-- Match of `(https?:\/\/[^\s]+)` at the current position, returning the
length of the match: a literal scheme prefix followed by a maximal nonempty
run of non-whitespace characters. -/
def urlAt (cs : List Char) : Option Nat :=
  match dropPrefixEx "https://".data cs with
  | some r =>
    if (r.takeWhile (fun c => !isJsWs c)).length = 0 then none
    else some (8 + (r.takeWhile (fun c => !isJsWs c)).length)
  | none =>
    match dropPrefixEx "http://".data cs with
    | some r =>
      if (r.takeWhile (fun c => !isJsWs c)).length = 0 then none
      else some (7 + (r.takeWhile (fun c => !isJsWs c)).length)
    | none => none

/-- Leftmost occurrence of the URL pattern: returns the text before the match,
the match itself, and the remainder after it. -/
def findUrl : List Char → Option (List Char × List Char × List Char)
  | [] => none
  | c :: cs =>
    match urlAt (c :: cs) with
    | some n => some ([], (c :: cs).take n, (c :: cs).drop n)
    | none => (findUrl cs).map (fun x => (c :: x.1, x.2.1, x.2.2))

/-- JavaScript `text.split(/(https?:\/\/[^\s]+)/g)`: alternating non-URL and
URL (captured) parts, beginning and ending with a (possibly empty) non-URL
part. Fueled so the scan is structurally recursive; a fuel of `length + 1`
always suffices because each match consumes at least one character. -/
def splitUrlsF : Nat → List Char → List (List Char)
  | 0, cs => [cs]
  | fuel + 1, cs =>
    match findUrl cs with
    | none => [cs]
    | some (before, u, after) => before :: u :: splitUrlsF fuel after

/-- Lazy closing search for `(.*?)\*\*`: the smallest split
`cs = cap ++ '*' :: '*' :: rest` whose capture contains no line terminator
(`.` cannot match line terminators, and a lazy quantifier extends only when
the closing delimiter fails at the current position). -/
def findClose2 : List Char → Option (List Char × List Char)
  | [] => none
  | [_] => none
  | c1 :: c2 :: rest =>
    if c1 = '*' ∧ c2 = '*' then some ([], rest)
    else if isLineTerm c1 then none
    else (findClose2 (c2 :: rest)).map (fun x => (c1 :: x.1, x.2))

/-- Opening attempt for `\*\*(.*?)\*\*` at the current position. -/
def bbAt : List Char → Option (List Char × List Char)
  | c1 :: c2 :: rest => if c1 = '*' ∧ c2 = '*' then findClose2 rest else none
  | _ => none

/-- Leftmost match of `\*\*(.*?)\*\*`: before-text, capture, remainder. -/
def findBB : List Char → Option (List Char × List Char × List Char)
  | [] => none
  | c :: cs =>
    match bbAt (c :: cs) with
    | some (cap, rest) => some ([], cap, rest)
    | none => (findBB cs).map (fun x => (c :: x.1, x.2.1, x.2.2))

/-- Global replace of `\*\*(.*?)\*\*` by `<strong>$1</strong>` (fueled;
`length + 1` iterations always suffice since every match is nonempty). -/
def replBBF : Nat → List Char → List Char
  | 0, cs => cs
  | fuel + 1, cs =>
    match findBB cs with
    | none => cs
    | some (b, cap, a) =>
      b ++ "<strong>".data ++ cap ++ "</strong>".data ++ replBBF fuel a

/-- Lazy closing search for `(.*?)\*`. -/
def findClose1 : List Char → Option (List Char × List Char)
  | [] => none
  | c :: cs =>
    if c = '*' then some ([], cs)
    else if isLineTerm c then none
    else (findClose1 cs).map (fun x => (c :: x.1, x.2))

/-- Opening attempt for `\*(.*?)\*` at the current position. -/
def iAt : List Char → Option (List Char × List Char)
  | [] => none
  | c :: cs => if c = '*' then findClose1 cs else none

/-- Leftmost match of `\*(.*?)\*`. -/
def findI : List Char → Option (List Char × List Char × List Char)
  | [] => none
  | c :: cs =>
    match iAt (c :: cs) with
    | some (cap, rest) => some ([], cap, rest)
    | none => (findI cs).map (fun x => (c :: x.1, x.2.1, x.2.2))

/-- Global replace of `\*(.*?)\*` by `<em>$1</em>` (fueled). -/
def replIF : Nat → List Char → List Char
  | 0, cs => cs
  | fuel + 1, cs =>
    match findI cs with
    | none => cs
    | some (b, cap, a) =>
      b ++ "<em>".data ++ cap ++ "</em>".data ++ replIF fuel a

/-- Global replace of `/\n/g` by `<br/>`. -/
def replNl : List Char → List Char
  | [] => []
  | c :: cs =>
    if c = '\n' then "<br/>".data ++ replNl cs else c :: replNl cs

/-- The source's chained substitutions on a plain text part:
`.replace(/\*\*(.*?)\*\*/g, "<strong>$1</strong>")`, then
`.replace(/\*(.*?)\*/g, "<em>$1</em>")`, then `.replace(/\n/g, "<br/>")`. -/
def emphSub (cs : List Char) : List Char :=
  let a := replBBF (cs.length + 1) cs
  let b := replIF (a.length + 1) a
  replNl b

/-- The first two substitutions only (bold and italic), with no newline
conversion: this is the transformation the specification's wording describes. -/
def emphOnly (cs : List Char) : List Char :=
  let a := replBBF (cs.length + 1) cs
  replIF (a.length + 1) a

/-- Substring containment, JavaScript `String.prototype.includes`. -/
def containsSub (p : List Char) : List Char → Bool
  | [] => p.isEmpty
  | c :: cs => (dropPrefixEx p (c :: cs)).isSome || containsSub p cs

/-- Case-insensitive image-extension alternatives of
`/\.(jpg|jpeg|png|gif|webp|svg|bmp)(\?.*)?$/i`. -/
def imageExts : List (List Char) :=
  ["jpg".data, "jpeg".data, "png".data, "gif".data, "webp".data,
   "svg".data, "bmp".data]

/-- After the extension, the optional query group `(\?.*)?` followed by `$`:
either the end of input, or `?` followed by non-line-terminator characters up
to the end. -/
def extTailOk : List Char → Bool
  | [] => true
  | '?' :: q => q.all (fun c => !isLineTerm c)
  | _ :: _ => false

/-- A match of the image-extension pattern starting at the current position. -/
def imageExtAt : List Char → Bool
  | '.' :: r =>
    imageExts.any (fun e =>
      match dropPrefixCI e r with
      | some rest => extTailOk rest
      | none => false)
  | _ => false

/-- Unanchored search for the image-extension pattern. -/
def imageExtMatch : List Char → Bool
  | [] => false
  | c :: cs => imageExtAt (c :: cs) || imageExtMatch cs

/-- A match attempt of `\[([^\]]+)\]$$([^)]+)$$` (the non-global image markdown
regex at line 270 of the source) at the current position. The two `$` are
end-of-input anchors, so after `]` the position must be the end of the string
and the nonempty group `([^)]+)` must still match, which is impossible; the
definition spells the attempt out faithfully. -/
def mdAt1 (cs : List Char) : Option (List Char × List Char) :=
  match cs with
  | '[' :: rest =>
    if rest.takeWhile (fun c => c ≠ ']') = [] then none
    else
      match rest.drop (rest.takeWhile (fun c => c ≠ ']')).length with
      | ']' :: rest2 =>
        if rest2 = [] then
          match rest2.takeWhile (fun c => c ≠ ')') with
          | [] => none
          | u =>
            if rest2.drop u.length = [] then
              some (rest.takeWhile (fun c => c ≠ ']'), u)
            else none
        else none
      | _ => none
  | _ => none

/-- Unanchored search for the image markdown pattern. -/
def mdFind1 : List Char → Option (List Char × List Char)
  | [] => none
  | c :: cs =>
    match mdAt1 (c :: cs) with
    | some x => some x
    | none => mdFind1 cs

/-- A match attempt of `\[([^\]]*)\]$$([^)]+)$$` (the global markdown-link
regex at line 353 of the source) at the current position; the capture group
`[^\]]*` may be empty here. Returns (alt, url, remainder after the match). -/
def mdAt (cs : List Char) : Option (List Char × List Char × List Char) :=
  match cs with
  | '[' :: rest =>
    match rest.drop (rest.takeWhile (fun c => c ≠ ']')).length with
    | ']' :: rest2 =>
      if rest2 = [] then
        match rest2.takeWhile (fun c => c ≠ ')') with
        | [] => none
        | u =>
          if rest2.drop u.length = [] then
            some (rest.takeWhile (fun c => c ≠ ']'), u, rest2.drop u.length)
          else none
      else none
    | _ => none
  | _ => none

/-- Leftmost occurrence of the markdown-link pattern: before-text, alt text,
url, remainder. -/
def mdFind : List Char → Option (List Char × List Char × List Char × List Char)
  | [] => none
  | c :: cs =>
    match mdAt (c :: cs) with
    | some (alt, u, after) => some ([], alt, u, after)
    | none => (mdFind cs).map (fun x => (c :: x.1, x.2.1, x.2.2.1, x.2.2.2))

/-- Segment kinds of the source's `ParsedContent` type. -/
inductive PartType
  | text
  | youtube
  | image
  | link
deriving DecidableEq

/-- The source's `ParsedContent` record. -/
structure ParsedContent where
  type : PartType
  content : List Char
  videoId : Option (List Char)
  alt : Option (List Char)
  url : Option (List Char)
  linkText : Option (List Char)
deriving DecidableEq

/-- Display-text truncation used for link segments: 47 characters plus an
ellipsis when the URL is longer than 50 characters. -/
def truncateLink (u : List Char) : List Char :=
  if 50 < u.length then u.take 47 ++ "...".data else u

/-- Classification of a bare URL part in `processPlainTextWithUrls`:
YouTube pattern first, then image extension, then a generic link. -/
def urlSegs (part : List Char) : List ParsedContent :=
  let url := jsTrim part
  match ytFind url with
  | some vid => [⟨PartType.youtube, url, some vid, none, none, none⟩]
  | none =>
    if imageExtMatch url then
      [⟨PartType.image, url, none, some "Image from chat".data, none, none⟩]
    else
      [⟨PartType.link, url, none, none, some url, some (truncateLink url)⟩]

/-- A non-URL part of the split: dropped when whitespace-only, otherwise the
emphasis substitutions are applied, newlines become `<br/>`, and the result is
trimmed. -/
def textSegs (part : List Char) : List ParsedContent :=
  if jsTrim part = [] then []
  else [⟨PartType.text, jsTrim (emphSub part), none, none, none, none⟩]

/-- Render the alternating parts produced by the URL split; `isUrl` says
whether the next part is at an odd (URL) index. -/
def renderParts : Bool → List (List Char) → List ParsedContent
  | _, [] => []
  | isUrl, part :: rest =>
    (if isUrl then urlSegs part else textSegs part) ++ renderParts (!isUrl) rest

/-- The source's `processPlainTextWithUrls`. -/
def processPlainTextWithUrls (t : List Char) : List ParsedContent :=
  renderParts false (splitUrlsF (t.length + 1) t)

/-- Classification of a markdown link in `processTextWithLinks`: YouTube
pattern, then the looser image heuristic (extension, `/images/` substring, or
`image` substring), then a generic link with the alt text as display text. -/
def classifyMd (alt url : List Char) : ParsedContent :=
  match ytFind url with
  | some vid => ⟨PartType.youtube, url, some vid, none, none, none⟩
  | none =>
    if imageExtMatch url || containsSub "/images/".data url ||
        containsSub "image".data url then
      ⟨PartType.image, url, none,
        some (if alt = [] then "Image from chat".data else alt), none, none⟩
    else ⟨PartType.link, url, none, none, some url, some alt⟩

/-- The `while ((match = markdownLinkRegex.exec(text)) !== null)` loop of
`processTextWithLinks`, operating on the suffix after the previous match.
Returns the segments pushed by the loop and the final unconsumed suffix.
Fueled: `none` models a loop that failed to terminate within the bound. -/
def mdLoop : Nat → List Char → Option (List ParsedContent × List Char)
  | 0, _ => none
  | fuel + 1, rem =>
    match mdFind rem with
    | none => some ([], rem)
    | some (before, alt, url, after) =>
      let pre := if jsTrim before = [] then [] else processPlainTextWithUrls before
      (mdLoop fuel after).map (fun x => (pre ++ classifyMd alt url :: x.1, x.2))

/-- The source's `processTextWithLinks`. -/
def processTextWithLinks (t : List Char) : Option (List ParsedContent) := do
  let (parts, leftover) ← mdLoop (t.length + 1) t
  let parts2 := parts ++
    (if leftover ≠ [] ∧ jsTrim leftover ≠ [] then processPlainTextWithUrls leftover
     else [])
  some (if parts2 = [] then processPlainTextWithUrls t else parts2)

/-- Flush the accumulated text buffer: when its trim is nonempty, the
processed segments are appended and the buffer is reset; otherwise the state
(including a whitespace-only buffer) is left untouched, exactly as in the
source. -/
def flushState (st : List ParsedContent × List Char) :
    Option (List ParsedContent × List Char) :=
  if jsTrim st.2 = [] then some st
  else (processTextWithLinks st.2).map (fun ps => (st.1 ++ ps, []))

/-- One iteration of the `for (const line of lines)` loop of
`parseMessageContent`. -/
def lineStep (st : List ParsedContent × List Char) (line : List Char) :
    Option (List ParsedContent × List Char) :=
  match imageUrlMatch line with
  | some v =>
    if jsTrim v = "N/A".data then some st
    else
      (flushState st).map (fun st' =>
        let ic := jsTrim v
        let seg :=
          match mdFind1 ic with
          | some (alt, u) => (⟨PartType.image, u, none, some alt, none, none⟩ : ParsedContent)
          | none => ⟨PartType.image, ic, none, some "Installation guide image".data, none, none⟩
        (st'.1 ++ [seg], st'.2))
  | none =>
    match videoUrlMatch line with
    | some v =>
      if jsTrim v = "N/A".data then some st
      else
        (flushState st).map (fun st' =>
          let seg :=
            match ytFind v with
            | some vid => (⟨PartType.youtube, v, some vid, none, none, none⟩ : ParsedContent)
            | none => ⟨PartType.link, v, none, none, some v, some (truncateLink v)⟩
          (st'.1 ++ [seg], st'.2))
    | none => some (st.1, st.2 ++ line ++ ['\n'])

/-- Run the line loop over a list of lines. -/
def parseLines (st : List ParsedContent × List Char) :
    List (List Char) → Option (List ParsedContent × List Char)
  | [] => some st
  | l :: ls => do
    let st' ← lineStep st l
    parseLines st' ls

/-- The source's `parseMessageContent`: split into lines, run the loop, flush
the remaining buffer, and drop segments whose content trims to empty. -/
def parseMessageContent (content : List Char) : Option (List ParsedContent) := do
  let st ← parseLines ([], []) (splitNl content)
  let st2 ← flushState st
  some (st2.1.filter (fun p => !(jsTrim p.content).isEmpty))

/-- A line the parser discards entirely: a sentinel line whose value trims to
the literal `N/A`. -/
def isNALine (line : List Char) : Bool :=
  match imageUrlMatch line with
  | some v => jsTrim v = "N/A".data
  | none =>
    match videoUrlMatch line with
    | some v => jsTrim v = "N/A".data
    | none => false

/-- A chat message of the UI state (`Message` in the source); the timestamp is
an abstract clock value. -/
structure Message where
  id : List Char
  content : List Char
  isUser : Bool
  timestamp : Nat
deriving DecidableEq

/-- The UI state relevant to `sendMessage`. -/
structure ChatState where
  messages : List Message
  inputMessage : List Char
  isLoading : Bool
  sessionId : List Char
deriving DecidableEq

/-- Response payload fields used by `sendMessage` (`data.data` of the JSON). -/
structure RespData where
  message : Option (List Char)
  sessionIdField : Option (List Char)
deriving DecidableEq

/-- How the `fetch` of `sendMessage` settles: a parsed 2xx JSON response, or
one of the failure modes that reach the `catch` block (non-2xx status throws
via `!res.ok`, a transport error rejects the fetch, a body that is not JSON
rejects `res.json()`). -/
inductive FetchOutcome
  | success (d : RespData)
  | httpError (status : Nat)
  | transportError
  | parseError
deriving DecidableEq

/-- The outcomes handled by the `catch` block. -/
def FetchOutcome.isFailure : FetchOutcome → Bool
  | .success _ => false
  | _ => true

/-- The fixed apology message content of the error path. -/
def errorContent : List Char :=
  "Sorry, there was an error processing your request.".data

/-- JavaScript `x || fallback` on an optional string field: `undefined` and
the empty string are both falsy. -/
def strOr (x : Option (List Char)) (fallback : List Char) : List Char :=
  match x with
  | some s => if s = [] then fallback else s
  | none => fallback

/-- The source's `sendMessage` as a state transition: guard on empty input or
a pending request, append the user message, set the busy flag, then settle the
fetch outcome; the `catch` block appends the fixed error message and the
`finally` block clears the busy flag. -/
def sendMessage (s : ChatState) (now : Nat) (outcome : FetchOutcome) : ChatState :=
  let cur := jsTrim s.inputMessage
  if cur = [] ∨ s.isLoading then s
  else
    let userMsg : Message := ⟨"user-".data ++ Nat.toDigits 10 now, cur, true, now⟩
    let s1 : ChatState := ⟨s.messages ++ [userMsg], [], true, s.sessionId⟩
    match outcome with
    | .success d =>
      let amsg : Message :=
        ⟨"assistant-".data ++ Nat.toDigits 10 now,
         strOr d.message "I couldn't process that request.".data, false, now⟩
      ⟨s1.messages ++ [amsg], s1.inputMessage, false, strOr d.sessionIdField []⟩
    | _ =>
      let emsg : Message :=
        ⟨"error-".data ++ Nat.toDigits 10 now, errorContent, false, now⟩
      ⟨s1.messages ++ [emsg], s1.inputMessage, false, s1.sessionId⟩

/-! ## Concrete inputs used by the example-based claims -/

/-- The example input of the claim. -/
def c1Input : List Char :=
  "See [docs](https://example.com/reference-guide-that-is-quite-long-indeed) now".data

/-- The URL the claim expects the link segment to carry (61 characters). -/
def c1Url : List Char :=
  "https://example.com/reference-guide-that-is-quite-long-indeed".data

/-- What the segmenter actually returns on `c1Input`: the markdown-link regex
cannot match, so the bare-URL scanner splits the text instead; the first text
segment keeps the markdown prefix `See [docs](`, the URL segment greedily
includes the closing parenthesis, and the final text is trimmed to
`now<br/>`. -/
def c1Actual : List ParsedContent :=
  [⟨PartType.text, "See [docs](".data, none, none, none, none⟩,
   ⟨PartType.link, c1Url ++ ")".data, none, none, some (c1Url ++ ")".data),
     some ((c1Url ++ ")".data).take 47 ++ "...".data)⟩,
   ⟨PartType.text, "now<br/>".data, none, none, none, none⟩]

/-- Reconstruction of the text of a segment list: the contents joined with the
newline separators of the original line structure. -/
def reconstructSegs (l : List ParsedContent) : List Char :=
  joinNl (l.map (fun p => p.content))

/-- The counterexample input for the idempotence claim. -/
def c8Input : List Char := "a http://\nx b".data

/-- Content of the single text segment the parser returns on `c8Input`: the
newline conversion glues the URL scheme onto the following text. -/
def c8Content : List Char := "a http://<br/>x b<br/>".data

/-! ## Basic facts about the markdown-link regexes -/

theorem mdAt_eq_none (cs : List Char) : mdAt cs = none := by
  unfold mdAt
  split
  · split
    · rename_i rest2 _
      split
      · rename_i h2
        subst h2
        simp
      · rfl
    · rfl
  · rfl

theorem mdFind_eq_none (cs : List Char) : mdFind cs = none := by
  induction cs with
  | nil => rfl
  | cons c cs ih => simp [mdFind, mdAt_eq_none, ih]

theorem mdAt1_eq_none (cs : List Char) : mdAt1 cs = none := by
  unfold mdAt1
  split
  · split
    · rfl
    · split
      · rename_i rest2 _
        split
        · rename_i h2
          subst h2
          simp
        · rfl
      · rfl
  · rfl

theorem mdFind1_eq_none (cs : List Char) : mdFind1 cs = none := by
  induction cs with
  | nil => rfl
  | cons c cs ih => simp [mdFind1, mdAt1_eq_none, ih]

theorem mdLoop_succ (fuel : Nat) (rem : List Char) :
    mdLoop (fuel + 1) rem = some ([], rem) := by
  simp [mdLoop, mdFind_eq_none]

theorem processTextWithLinks_eq (t : List Char) :
    processTextWithLinks t = some (processPlainTextWithUrls t) := by
  unfold processTextWithLinks
  rw [mdLoop_succ]
  by_cases h : t ≠ [] ∧ jsTrim t ≠ []
  · simp only [Option.bind_eq_bind, Option.some_bind, List.nil_append, if_pos h, ite_self]
  · simp only [Option.bind_eq_bind, Option.some_bind, List.nil_append, if_neg h,
      List.append_nil, if_pos rfl, if_true]

theorem flushState_isSome (st : List ParsedContent × List Char) :
    (flushState st).isSome := by
  unfold flushState
  split
  · rfl
  · rw [processTextWithLinks_eq]
    rfl

theorem lineStep_isSome (st : List ParsedContent × List Char) (line : List Char) :
    (lineStep st line).isSome := by
  rcases Option.isSome_iff_exists.mp (flushState_isSome st) with ⟨st', hf⟩
  unfold lineStep
  split
  · split
    · rfl
    · rw [hf]
      rfl
  · split
    · split
      · rfl
      · rw [hf]
        rfl
    · rfl

/-! ## Totality of the parser -/

theorem parseLines_isSome (ls : List (List Char)) :
    ∀ st, (parseLines st ls).isSome := by
  induction ls with
  | nil => intro st; rfl
  | cons l ls ih =>
    intro st
    rcases Option.isSome_iff_exists.mp (lineStep_isSome st l) with ⟨st', h⟩
    simp only [parseLines, Option.bind_eq_bind, h, Option.some_bind]
    exact ih st'

theorem parseMessageContent_isSome (t : List Char) :
    (parseMessageContent t).isSome := by
  unfold parseMessageContent
  rcases Option.isSome_iff_exists.mp (parseLines_isSome (splitNl t) ([], [])) with ⟨st, h1⟩
  rcases Option.isSome_iff_exists.mp (flushState_isSome st) with ⟨st2, h2⟩
  simp [h1, h2]

/-! ## Membership in the filtered output -/

theorem parseMessageContent_mem (t : List Char) (l : List ParsedContent)
    (h : parseMessageContent t = some l) (p : ParsedContent) (hp : p ∈ l) :
    jsTrim p.content ≠ [] := by
  unfold parseMessageContent at h
  rcases h1 : parseLines ([], []) (splitNl t) with _ | st
  · rw [h1] at h
    simp at h
  · rw [h1] at h
    simp only [Option.bind_eq_bind, Option.some_bind] at h
    rcases h2 : flushState st with _ | st2
    · rw [h2] at h
      simp at h
    · rw [h2] at h
      simp only [Option.some_bind, Option.some.injEq] at h
      subst h
      have := (List.mem_filter.mp hp).2
      simpa [List.isEmpty_iff] using this

/-! ## N/A sentinel lines are ignored -/

theorem lineStep_na (st : List ParsedContent × List Char) (l : List Char)
    (h : isNALine l = true) : lineStep st l = some st := by
  unfold isNALine at h
  unfold lineStep
  rcases him : imageUrlMatch l with _ | v
  · rcases hvm : videoUrlMatch l with _ | v
    · simp [him, hvm] at h
    · simp only [him, hvm] at h ⊢
      rw [if_pos (of_decide_eq_true h)]
  · simp only [him] at h ⊢
    rw [if_pos (of_decide_eq_true h)]

theorem parseLines_filter_na (ls : List (List Char)) :
    ∀ st, parseLines st ls = parseLines st (ls.filter (fun l => !isNALine l)) := by
  induction ls with
  | nil => intro st; rfl
  | cons l ls ih =>
    intro st
    by_cases hna : isNALine l = true
    · have : (!isNALine l) = false := by simp [hna]
      simp only [List.filter_cons, this, if_neg (Bool.false_ne_true)]
      simp only [parseLines, Option.bind_eq_bind, lineStep_na st l hna, Option.some_bind]
      exact ih st
    · have hb : (!isNALine l) = true := by simp [Bool.eq_false_iff.mpr hna]
      simp only [List.filter_cons, hb, if_pos trivial]
      simp only [parseLines, Option.bind_eq_bind]
      rcases hstep : lineStep st l with _ | st'
      · rfl
      · simp only [Option.some_bind]
        exact ih st'

theorem splitNl_ne_nil (cs : List Char) : splitNl cs ≠ [] := by
  cases cs with
  | nil => simp [splitNl]
  | cons c rest =>
    unfold splitNl
    split
    · simp
    · split <;> simp

theorem splitNl_no_nl (cs : List Char) : ∀ l ∈ splitNl cs, '\n' ∉ l := by
  induction cs with
  | nil =>
    intro l hl
    simp [splitNl] at hl
    simp [hl]
  | cons c rest ih =>
    intro l hl
    unfold splitNl at hl
    split at hl
    · rcases List.mem_cons.mp hl with h | h
      · simp [h]
      · exact ih l h
    · rename_i hc
      rcases hsp : splitNl rest with _ | ⟨l', ls⟩
      · exact absurd hsp (splitNl_ne_nil rest)
      · rw [hsp] at hl
        rcases List.mem_cons.mp hl with h | h
        · subst h
          intro hmem
          rcases List.mem_cons.mp hmem with h' | h'
          · exact hc h'.symm
          · exact ih l' (hsp ▸ List.mem_cons_self l' ls) h'
        · exact ih l (hsp ▸ List.mem_cons_of_mem l' h)

theorem splitNl_single (l : List Char) (h : '\n' ∉ l) : splitNl l = [l] := by
  induction l with
  | nil => rfl
  | cons c r ih =>
    have hc : ¬c = '\n' := fun hh => h (hh ▸ List.mem_cons_self c r)
    have hr : '\n' ∉ r := fun hh => h (List.mem_cons_of_mem c hh)
    unfold splitNl
    rw [if_neg hc, ih hr]

theorem splitNl_cons (c : Char) (rest : List Char) :
    splitNl (c :: rest) =
      if c = '\n' then [] :: splitNl rest
      else
        match splitNl rest with
        | l :: ls => (c :: l) :: ls
        | [] => [[c]] := rfl

theorem splitNl_append_nl (l rest : List Char) (h : '\n' ∉ l) :
    splitNl (l ++ '\n' :: rest) = l :: splitNl rest := by
  induction l with
  | nil => simp [splitNl]
  | cons c r ih =>
    have hc : ¬c = '\n' := fun hh => h (hh ▸ List.mem_cons_self c r)
    have hr : '\n' ∉ r := fun hh => h (List.mem_cons_of_mem c hh)
    simp only [List.cons_append]
    rw [splitNl_cons, if_neg hc, ih hr]

theorem splitNl_joinNl (ls : List (List Char)) (hne : ls ≠ [])
    (h : ∀ l ∈ ls, '\n' ∉ l) : splitNl (joinNl ls) = ls := by
  induction ls with
  | nil => exact absurd rfl hne
  | cons l ls ih =>
    cases ls with
    | nil =>
      exact splitNl_single l (h l (List.mem_cons_self l []))
    | cons l2 ls' =>
      have hj : joinNl (l :: l2 :: ls') = l ++ '\n' :: joinNl (l2 :: ls') := rfl
      rw [hj, splitNl_append_nl l _ (h l (List.mem_cons_self l _)),
        ih (by simp) (fun x hx => h x (List.mem_cons_of_mem l hx))]

theorem parseMessageContent_strip_na (t : List Char) :
    parseMessageContent (joinNl ((splitNl t).filter (fun l => !isNALine l))) =
      parseMessageContent t := by
  have hsub : ∀ l ∈ (splitNl t).filter (fun l => !isNALine l), '\n' ∉ l :=
    fun l hl => splitNl_no_nl t l (List.mem_filter.mp hl).1
  unfold parseMessageContent
  rw [parseLines_filter_na (splitNl t) ([], [])]
  by_cases hF : (splitNl t).filter (fun l => !isNALine l) = []
  · rw [hF]
    decide
  · rw [splitNl_joinNl _ hF hsub]

/-! ## Mutual exclusivity of the sentinel patterns -/

theorem ciEq_v_not_i (c : Char) (h : ciEq 'v' c = true) : ciEq 'i' c = false := by
  have hv118 : ('v' : Char).toNat = 118 := by decide
  have hi105 : ('i' : Char).toNat = 105 := by decide
  have hcN : c.toNat = 118 ∨ c.toNat = 86 := by
    unfold ciEq at h
    simp only [Bool.or_eq_true, Bool.and_eq_true, decide_eq_true_eq] at h
    rcases h with h | h
    · exact Or.inl ((congrArg Char.toNat h).symm.trans hv118)
    · right
      have h2 := h.2
      rw [hv118] at h2
      omega
  cases hB : ciEq 'i' c with
  | false => rfl
  | true =>
    exfalso
    unfold ciEq at hB
    simp only [Bool.or_eq_true, Bool.and_eq_true, decide_eq_true_eq] at hB
    rcases hB with hB | hB
    · have hc105 : c.toNat = 105 := (congrArg Char.toNat hB).symm.trans hi105
      rcases hcN with hc | hc <;> omega
    · have h2 := hB.2
      rw [hi105] at h2
      rcases hcN with hc | hc <;> omega

theorem dropPrefixCI_cons (p c : Char) (ps cs : List Char) :
    dropPrefixCI (p :: ps) (c :: cs) =
      if ciEq p c then dropPrefixCI ps cs else none := rfl

theorem videoUrlMatch_image_none (l v : List Char) (h : videoUrlMatch l = some v) :
    imageUrlMatch l = none := by
  cases l with
  | nil =>
    have h0 : videoUrlMatch ([] : List Char) = none := by decide
    rw [h0] at h
    exact absurd h (by simp)
  | cons c cs =>
    unfold videoUrlMatch matchSentinel at h
    unfold imageUrlMatch matchSentinel
    rw [show ("video url: ".data) = 'v' :: "ideo url: ".data from rfl,
      dropPrefixCI_cons] at h
    rw [show ("image url: ".data) = 'i' :: "mage url: ".data from rfl,
      dropPrefixCI_cons]
    by_cases hc : ciEq 'v' c = true
    · simp [ciEq_v_not_i c hc]
    · rw [if_neg hc] at h
      simp at h

/-! ## Claim C3: N/A sentinel lines contribute nothing -/

/-- C3: for every input text, the lines whose sentinel value trims to the
literal `N/A` contribute nothing to the output: parsing the input with all
such lines removed yields exactly the same segment list. -/
theorem c3_na_lines_contribute_nothing (t : List Char) :
    parseMessageContent (joinNl ((splitNl t).filter (fun l => !isNALine l))) =
      parseMessageContent t := parseMessageContent_strip_na t

/-! ## Claim C5: the parser is total -/

/-- C5: for every input string the segmenter terminates and returns a segment
list; no input makes it fail (the fueled markdown loop always terminates
within its budget, and so does every helper). -/
theorem c5_parse_total :
    ∀ t : List Char, (∃ l, parseMessageContent t = some l) ∧
      (∃ l, processTextWithLinks t = some l) :=
  fun t => ⟨Option.isSome_iff_exists.mp (parseMessageContent_isSome t),
    ⟨processPlainTextWithUrls t, processTextWithLinks_eq t⟩⟩

/-! ## Claim C6: no emitted segment is blank -/

/-- C6: every segment in the list returned by the segmenter has content whose
trimmed form is nonempty. -/
theorem c6_no_blank_segments (t : List Char) (l : List ParsedContent)
    (h : parseMessageContent t = some l) : ∀ p ∈ l, jsTrim p.content ≠ [] :=
  fun p hp => parseMessageContent_mem t l h p hp

theorem c6_witness :
    parseMessageContent "hi".data =
      some [⟨PartType.text, "hi<br/>".data, none, none, none, none⟩] ∧
    jsTrim (⟨PartType.text, "hi<br/>".data, none, none, none, none⟩ :
      ParsedContent).content ≠ [] :=
  ⟨by decide,
    c6_no_blank_segments "hi".data
      [⟨PartType.text, "hi<br/>".data, none, none, none, none⟩] (by decide)
      ⟨PartType.text, "hi<br/>".data, none, none, none, none⟩ (by decide)⟩

/-! ## Claim C9: the markdown-link regex matches nothing -/

/-- C9: the markdown-link regex `\[([^\]]*)\]$$([^)]+)$$` (whose `$$` is a
pair of end-of-input anchors) matches no string, so the markdown branch of
`processTextWithLinks` is unreachable and the function returns exactly the
segments of `processPlainTextWithUrls` on every input. -/
theorem c9_markdown_branch_unreachable :
    (∀ cs, mdFind cs = none) ∧
    (∀ t, processTextWithLinks t = some (processPlainTextWithUrls t)) :=
  ⟨mdFind_eq_none, processTextWithLinks_eq⟩

/-! ## Claim C4: non-YouTube video sentinel lines become links -/

/-- C4: for every line `Video URL: v` where `v` trimmed is not `N/A` and `v`
does not match the YouTube pattern, the segmenter emits a link segment whose
display text is `v` unmodified when `v` has at most 50 characters, and the
first 47 characters of `v` followed by `...` when it is longer. -/
theorem c4_video_link_display (parts : List ParsedContent) (buf line v : List Char)
    (hv : videoUrlMatch line = some v) (hna : jsTrim v ≠ "N/A".data)
    (hyt : ytFind v = none) :
    lineStep (parts, buf) line =
      (flushState (parts, buf)).map (fun st' =>
        (st'.1 ++ [⟨PartType.link, v, none, none, some v,
          some (if 50 < v.length then v.take 47 ++ "...".data else v)⟩], st'.2)) := by
  unfold lineStep
  rw [videoUrlMatch_image_none line v hv]
  simp only [hv, if_neg hna, hyt, truncateLink]

theorem c4_witness :
    videoUrlMatch "Video URL: https://example.com/page".data =
      some "https://example.com/page".data ∧
    jsTrim "https://example.com/page".data ≠ "N/A".data ∧
    ytFind "https://example.com/page".data = none ∧
    lineStep ([], []) "Video URL: https://example.com/page".data =
      (flushState ([], [])).map (fun st' =>
        (st'.1 ++ [⟨PartType.link, "https://example.com/page".data, none, none,
          some "https://example.com/page".data,
          some (if 50 < "https://example.com/page".data.length then
            "https://example.com/page".data.take 47 ++ "...".data
          else "https://example.com/page".data)⟩], st'.2)) :=
  ⟨by decide, by decide, by decide,
    c4_video_link_display [] [] "Video URL: https://example.com/page".data
      "https://example.com/page".data (by decide) (by decide) (by decide)⟩

/-! ## Claim C10: the N/A comparison is case-sensitive -/

/-- C10: the `N/A` comparison is case-sensitive while the sentinel prefix is
matched case-insensitively: a line `Image URL: v` (prefix in any letter case)
whose value trims to `N/A` only up to letter case but not exactly is not
dropped; it yields an image segment with content `v` trimmed and the default
alt text. -/
theorem c10_na_case_sensitive (parts : List ParsedContent) (buf line v : List Char)
    (him : imageUrlMatch line = some v)
    (_hci : ciMatch "n/a".data (jsTrim v) = true)
    (hne : jsTrim v ≠ "N/A".data) :
    lineStep (parts, buf) line =
      (flushState (parts, buf)).map (fun st' =>
        (st'.1 ++ [⟨PartType.image, jsTrim v, none,
          some "Installation guide image".data, none, none⟩], st'.2)) := by
  unfold lineStep
  simp only [him, if_neg hne, mdFind1_eq_none]

theorem c10_witness :
    imageUrlMatch "iMAGE uRL: n/a".data = some "n/a".data ∧
    ciMatch "n/a".data (jsTrim "n/a".data) = true ∧
    jsTrim "n/a".data ≠ "N/A".data ∧
    lineStep ([], []) "iMAGE uRL: n/a".data =
      (flushState ([], [])).map (fun st' =>
        (st'.1 ++ [⟨PartType.image, jsTrim "n/a".data, none,
          some "Installation guide image".data, none, none⟩], st'.2)) :=
  ⟨by decide, by decide, by decide,
    c10_na_case_sensitive [] [] "iMAGE uRL: n/a".data "n/a".data
      (by decide) (by decide) (by decide)⟩

/-! ## Claim C7: the failure path of sendMessage -/

/-- C7: whenever the POST settles as a failure (non-2xx status, transport
error, or JSON parse failure), `sendMessage` appends exactly one assistant
message whose content is the fixed apology string after the user message it
had already appended, leaves every previously appended message unchanged, and
clears the busy flag; the session id is also left unchanged. -/
theorem c7_failure_appends_apology (s : ChatState) (now : Nat)
    (outcome : FetchOutcome) (hfail : outcome.isFailure = true)
    (hmsg : jsTrim s.inputMessage ≠ []) (hbusy : s.isLoading = false) :
    (sendMessage s now outcome).messages =
      s.messages ++
        [⟨"user-".data ++ Nat.toDigits 10 now, jsTrim s.inputMessage, true, now⟩,
         ⟨"error-".data ++ Nat.toDigits 10 now, errorContent, false, now⟩] ∧
    (sendMessage s now outcome).isLoading = false ∧
    (sendMessage s now outcome).sessionId = s.sessionId ∧
    errorContent = "Sorry, there was an error processing your request.".data := by
  have hguard : ¬(jsTrim s.inputMessage = [] ∨ s.isLoading) := by
    intro hg
    rcases hg with hg | hg
    · exact hmsg hg
    · rw [hbusy] at hg
      exact Bool.false_ne_true hg
  unfold sendMessage
  rw [if_neg hguard]
  cases outcome with
  | success d => simp [FetchOutcome.isFailure] at hfail
  | httpError status => exact ⟨by simp, rfl, rfl, rfl⟩
  | transportError => exact ⟨by simp, rfl, rfl, rfl⟩
  | parseError => exact ⟨by simp, rfl, rfl, rfl⟩

theorem c7_witness :
    (FetchOutcome.transportError.isFailure = true ∧
     jsTrim "hello".data ≠ [] ∧
     (⟨[⟨"m0".data, "prior".data, false, 0⟩], "hello".data, false,
        "sess".data⟩ : ChatState).isLoading = false) ∧
    (sendMessage
        ⟨[⟨"m0".data, "prior".data, false, 0⟩], "hello".data, false, "sess".data⟩
        7 FetchOutcome.transportError).messages =
      [⟨"m0".data, "prior".data, false, 0⟩] ++
        [⟨"user-".data ++ Nat.toDigits 10 7, jsTrim "hello".data, true, 7⟩,
         ⟨"error-".data ++ Nat.toDigits 10 7, errorContent, false, 7⟩] :=
  ⟨⟨by decide, by decide, by decide⟩,
    (c7_failure_appends_apology
      ⟨[⟨"m0".data, "prior".data, false, 0⟩], "hello".data, false, "sess".data⟩
      7 FetchOutcome.transportError (by decide) (by decide) (by decide)).1⟩

/-! ## Text-only inputs accumulate into one buffer -/

theorem lineStep_text (parts : List ParsedContent) (buf l : List Char)
    (him : imageUrlMatch l = none) (hvm : videoUrlMatch l = none) :
    lineStep (parts, buf) l = some (parts, buf ++ l ++ ['\n']) := by
  unfold lineStep
  simp only [him, hvm]

theorem parseLines_all_text (ls : List (List Char)) :
    ∀ parts buf, (∀ l ∈ ls, imageUrlMatch l = none ∧ videoUrlMatch l = none) →
      parseLines (parts, buf) ls =
        some (parts, buf ++ (ls.map (fun l => l ++ ['\n'])).flatten) := by
  induction ls with
  | nil => intro parts buf _; simp [parseLines]
  | cons l ls ih =>
    intro parts buf h
    have h1 := h l (List.mem_cons_self l ls)
    simp only [parseLines, Option.bind_eq_bind, lineStep_text parts buf l h1.1 h1.2,
      Option.some_bind]
    rw [ih parts (buf ++ l ++ ['\n']) (fun x hx => h x (List.mem_cons_of_mem l hx))]
    simp [List.append_assoc]

theorem splitNl_flatten (cs : List Char) :
    ((splitNl cs).map (fun l => l ++ ['\n'])).flatten = cs ++ ['\n'] := by
  induction cs with
  | nil => rfl
  | cons c rest ih =>
    rw [splitNl_cons]
    by_cases hc : c = '\n'
    · subst hc
      simp [ih]
    · rw [if_neg hc]
      rcases hsp : splitNl rest with _ | ⟨l, ls⟩
      · exact absurd hsp (splitNl_ne_nil rest)
      · rw [hsp] at ih
        simp only [List.map_cons, List.flatten_cons, List.append_assoc,
          List.singleton_append, List.nil_append, List.cons_append] at ih ⊢
        rw [ih]

/-! ## Trimming and whitespace lemmas -/

theorem all_of_dropWhile_all (p : Char → Bool) (l : List Char)
    (h : (l.dropWhile p).all p = true) : l.all p = true := by
  have hsplit := List.takeWhile_append_dropWhile p l
  rw [← hsplit, List.all_append]
  exact Bool.and_eq_true_iff.mpr
    ⟨List.all_eq_true.mpr (fun x hx => List.mem_takeWhile_imp hx), h⟩

theorem jsTrim_eq_nil_iff (cs : List Char) : jsTrim cs = [] ↔ cs.all isJsWs = true := by
  unfold jsTrim
  constructor
  · intro h
    have h1 : (cs.dropWhile isJsWs).reverse.dropWhile isJsWs = [] :=
      List.reverse_eq_nil_iff.mp h
    have h2 := List.dropWhile_eq_nil_iff.mp h1
    have h3 : ∀ x ∈ cs.dropWhile isJsWs, isJsWs x = true :=
      fun x hx => h2 x (List.mem_reverse.mpr hx)
    exact all_of_dropWhile_all isJsWs cs (List.all_eq_true.mpr h3)
  · intro h
    have h1 : cs.dropWhile isJsWs = [] :=
      List.dropWhile_eq_nil_iff.mpr (fun x hx => List.all_eq_true.mp h x hx)
    simp [h1]

theorem jsTrim_all_of_all (cs : List Char) (h : (jsTrim cs).all isJsWs = true) :
    cs.all isJsWs = true := by
  unfold jsTrim at h
  rw [List.all_reverse] at h
  have h1 := all_of_dropWhile_all isJsWs (cs.dropWhile isJsWs).reverse h
  rw [List.all_reverse] at h1
  exact all_of_dropWhile_all isJsWs cs h1

theorem replNl_all_ws (cs : List Char) (h : (replNl cs).all isJsWs = true) :
    cs.all isJsWs = true := by
  induction cs with
  | nil => rfl
  | cons c cs ih =>
    unfold replNl at h
    by_cases hc : c = '\n'
    · rw [if_pos hc, List.all_append] at h
      have := (Bool.and_eq_true_iff.mp h).1
      exact absurd this (by decide)
    · rw [if_neg hc, List.all_cons] at h
      rcases Bool.and_eq_true_iff.mp h with ⟨h1, h2⟩
      rw [List.all_cons]
      exact Bool.and_eq_true_iff.mpr ⟨h1, ih h2⟩

theorem replBBF_all_ws (fuel : Nat) :
    ∀ cs, (replBBF fuel cs).all isJsWs = true → cs.all isJsWs = true := by
  induction fuel with
  | zero => intro cs h; exact h
  | succ f _ =>
    intro cs h
    unfold replBBF at h
    rcases hf : findBB cs with _ | ⟨b, cap, a⟩
    · rw [hf] at h; exact h
    · rw [hf] at h
      exfalso
      rw [List.all_append] at h
      have h1 := (Bool.and_eq_true_iff.mp h).1
      rw [List.all_append] at h1
      exact absurd (Bool.and_eq_true_iff.mp h1).2 (by decide)

theorem replIF_all_ws (fuel : Nat) :
    ∀ cs, (replIF fuel cs).all isJsWs = true → cs.all isJsWs = true := by
  induction fuel with
  | zero => intro cs h; exact h
  | succ f _ =>
    intro cs h
    unfold replIF at h
    rcases hf : findI cs with _ | ⟨b, cap, a⟩
    · rw [hf] at h; exact h
    · rw [hf] at h
      exfalso
      rw [List.all_append] at h
      have h1 := (Bool.and_eq_true_iff.mp h).1
      rw [List.all_append] at h1
      exact absurd (Bool.and_eq_true_iff.mp h1).2 (by decide)

theorem emphSub_all_ws (cs : List Char) (h : (emphSub cs).all isJsWs = true) :
    cs.all isJsWs = true := by
  unfold emphSub at h
  exact replBBF_all_ws _ _ (replIF_all_ws _ _ (replNl_all_ws _ h))

/-! ## Appending trailing whitespace cannot create a URL match -/

theorem dropPrefixEx_cons2 (p c : Char) (ps cs : List Char) :
    dropPrefixEx (p :: ps) (c :: cs) = if c = p then dropPrefixEx ps cs else none := rfl

theorem dropPrefixEx_append_some (p : List Char) :
    ∀ cs r d, dropPrefixEx p cs = some r → dropPrefixEx p (cs ++ d) = some (r ++ d) := by
  induction p with
  | nil =>
    intro cs r d h
    have : cs = r := Option.some.inj h
    subst this
    rfl
  | cons p ps ih =>
    intro cs r d h
    cases cs with
    | nil => exact absurd h (by simp [dropPrefixEx])
    | cons c cs' =>
      rw [dropPrefixEx_cons2] at h
      by_cases hc : c = p
      · rw [if_pos hc] at h
        rw [List.cons_append, dropPrefixEx_cons2, if_pos hc]
        exact ih cs' r d h
      · rw [if_neg hc] at h
        exact absurd h (by simp)

theorem dropPrefixEx_none_ws (c : Char) (hc : isJsWs c = true) :
    ∀ p, (∀ x ∈ p, isJsWs x = false) → ∀ cs, dropPrefixEx p cs = none →
      dropPrefixEx p (cs ++ [c]) = none := by
  intro p
  induction p with
  | nil => intro _ cs h; exact absurd h (by simp [dropPrefixEx])
  | cons p ps ih =>
    intro hp cs h
    cases cs with
    | nil =>
      simp only [List.nil_append]
      rw [dropPrefixEx_cons2]
      have hcp : ¬c = p := by
        intro he
        have h1 := hp p (List.mem_cons_self p ps)
        rw [← he, hc] at h1
        exact Bool.false_ne_true h1.symm
      rw [if_neg hcp]
    | cons a cs' =>
      rw [dropPrefixEx_cons2] at h
      rw [List.cons_append, dropPrefixEx_cons2]
      by_cases ha : a = p
      · rw [if_pos ha] at h ⊢
        exact ih (fun x hx => hp x (List.mem_cons_of_mem p hx)) cs' h
      · rw [if_neg ha]

theorem takeWhile_nonWs_nil_append (r : List Char) (c : Char) (hc : isJsWs c = true)
    (h : r.takeWhile (fun x => !isJsWs x) = []) :
    (r ++ [c]).takeWhile (fun x => !isJsWs x) = [] := by
  cases r with
  | nil => simp [List.takeWhile_cons, hc]
  | cons a r' =>
    rw [List.takeWhile_cons] at h
    by_cases ha : (!isJsWs a) = true
    · rw [if_pos ha] at h
      exact absurd h (by simp)
    · rw [List.cons_append, List.takeWhile_cons, if_neg ha]

theorem urlAt_append_ws (cs : List Char) (c : Char) (hc : isJsWs c = true)
    (h : urlAt cs = none) : urlAt (cs ++ [c]) = none := by
  have hws8 : ∀ x ∈ "https://".data, isJsWs x = false := by decide
  have hws7 : ∀ x ∈ "http://".data, isJsWs x = false := by decide
  unfold urlAt at h ⊢
  rcases h8 : dropPrefixEx "https://".data cs with _ | r8
  · rcases h7 : dropPrefixEx "http://".data cs with _ | r7
    · rw [dropPrefixEx_none_ws c hc _ hws8 cs h8,
        dropPrefixEx_none_ws c hc _ hws7 cs h7]
    · simp only [h8, h7] at h
      rw [dropPrefixEx_none_ws c hc _ hws8 cs h8,
        dropPrefixEx_append_some _ cs r7 [c] h7]
      by_cases h0 : (r7.takeWhile (fun x => !isJsWs x)).length = 0
      · have hnil := List.length_eq_zero.mp h0
        have h2 := takeWhile_nonWs_nil_append r7 c hc hnil
        simp [h2]
      · rw [if_neg h0] at h
        exact absurd h (by simp)
  · simp only [h8] at h
    rw [dropPrefixEx_append_some _ cs r8 [c] h8]
    by_cases h0 : (r8.takeWhile (fun x => !isJsWs x)).length = 0
    · have hnil := List.length_eq_zero.mp h0
      have h2 := takeWhile_nonWs_nil_append r8 c hc hnil
      simp [h2]
    · rw [if_neg h0] at h
      exact absurd h (by simp)

theorem findUrl_append_ws (c : Char) (hc : isJsWs c = true) :
    ∀ cs, findUrl cs = none → findUrl (cs ++ [c]) = none := by
  intro cs
  induction cs with
  | nil =>
    intro _
    have hu : urlAt [c] = none := by
      have h0 : urlAt ([] : List Char) = none := by decide
      simpa using urlAt_append_ws [] c hc h0
    simp [findUrl, hu]
  | cons a cs' ih =>
    intro h
    unfold findUrl at h
    rcases hu : urlAt (a :: cs') with _ | n
    · rw [hu] at h
      have h' : findUrl cs' = none := by
        rcases hfu : findUrl cs' with _ | x
        · rfl
        · rw [hfu] at h
          exact absurd h (by simp)
      have hu2 : urlAt ((a :: cs') ++ [c]) = none := urlAt_append_ws _ c hc hu
      rw [List.cons_append] at hu2
      rw [List.cons_append]
      unfold findUrl
      rw [hu2, ih h']
      rfl
    · rw [hu] at h
      exact absurd h (by simp)

theorem findUrl_snoc_nl (t : List Char) (h : findUrl t = none) :
    findUrl (t ++ ['\n']) = none := findUrl_append_ws '\n' (by decide) t h

/-! ## Plain text with no URL yields a single processed text segment -/

theorem splitUrlsF_no_url (fuel : Nat) (t : List Char) (h : findUrl t = none) :
    splitUrlsF (fuel + 1) t = [t] := by
  unfold splitUrlsF
  rw [h]

theorem ppwu_no_url (t : List Char) (h : findUrl t = none) :
    processPlainTextWithUrls t = textSegs t := by
  unfold processPlainTextWithUrls
  rw [splitUrlsF_no_url _ _ h]
  simp [renderParts]

/-! ## Claim C2: text-only inputs -/

/-- C2 counterexample: the input `"a"` contains no sentinel line, no http(s)
URL and no markdown link, yet the segmenter's single text segment has content
`"a<br/>"` (the trailing newline appended by the line loop is converted to
`<br/>`), not the input with only the emphasis substitutions applied; and the
empty input also satisfies the hypotheses but yields zero segments rather
than exactly one. The claim as stated is therefore false. -/
theorem c2_counterexample :
    (∀ l ∈ splitNl "a".data, imageUrlMatch l = none ∧ videoUrlMatch l = none) ∧
    findUrl "a".data = none ∧
    mdFind "a".data = none ∧
    emphOnly "a".data = "a".data ∧
    (parseMessageContent "a".data).map (fun l => l.map (fun p => p.content)) ≠
      some ["a".data] ∧
    parseMessageContent ([] : List Char) = some [] :=
  ⟨by decide, by decide, by decide, by decide, by decide, by decide⟩

/-- C2 amended: for every input text whose lines match neither sentinel
pattern, that contains no http(s) URL, and whose trim is nonempty, the
segmenter returns exactly one text segment; its content is the input plus the
trailing newline appended by the line loop, with the bold and italic
substitutions applied, newlines converted to `<br/>`, and the result
trimmed. -/
theorem c2_amended (t : List Char)
    (hsent : ∀ l ∈ splitNl t, imageUrlMatch l = none ∧ videoUrlMatch l = none)
    (hurl : findUrl t = none) (hne : jsTrim t ≠ []) :
    parseMessageContent t =
      some [⟨PartType.text, jsTrim (emphSub (t ++ ['\n'])), none, none, none, none⟩] := by
  have hbuf : parseLines ([], []) (splitNl t) = some ([], t ++ ['\n']) := by
    rw [parseLines_all_text (splitNl t) [] [] hsent, splitNl_flatten]
    rfl
  have htb : jsTrim (t ++ ['\n']) ≠ [] := by
    intro hcon
    have hall := (jsTrim_eq_nil_iff _).mp hcon
    rw [List.all_append] at hall
    exact hne ((jsTrim_eq_nil_iff t).mpr (Bool.and_eq_true_iff.mp hall).1)
  have hurl2 : findUrl (t ++ ['\n']) = none := findUrl_snoc_nl t hurl
  have hP : processPlainTextWithUrls (t ++ ['\n']) =
      [⟨PartType.text, jsTrim (emphSub (t ++ ['\n'])), none, none, none, none⟩] := by
    rw [ppwu_no_url _ hurl2]
    unfold textSegs
    rw [if_neg htb]
  have hcne : jsTrim (jsTrim (emphSub (t ++ ['\n']))) ≠ [] := by
    intro hcon
    have h1 := (jsTrim_eq_nil_iff _).mp hcon
    have h2 := jsTrim_all_of_all _ h1
    have h3 := emphSub_all_ws _ h2
    exact htb ((jsTrim_eq_nil_iff _).mpr h3)
  have hfl : flushState ([], t ++ ['\n']) =
      some ([] ++ processPlainTextWithUrls (t ++ ['\n']), []) := by
    unfold flushState
    rw [if_neg htb, processTextWithLinks_eq]
    rfl
  unfold parseMessageContent
  rw [hbuf]
  simp only [Option.bind_eq_bind, Option.some_bind]
  rw [hfl]
  simp only [Option.some_bind, List.nil_append, hP]
  have hbool : (jsTrim (jsTrim (emphSub (t ++ ['\n'])))).isEmpty = false := by
    rcases hEm : (jsTrim (jsTrim (emphSub (t ++ ['\n'])))).isEmpty with _ | _
    · rfl
    · exact absurd (List.isEmpty_iff.mp hEm) hcne
  simp [List.filter_cons, hbool]

theorem c2_amended_witness :
    ((∀ l ∈ splitNl "a".data, imageUrlMatch l = none ∧ videoUrlMatch l = none) ∧
     findUrl "a".data = none ∧ jsTrim "a".data ≠ []) ∧
    parseMessageContent "a".data =
      some [⟨PartType.text, jsTrim (emphSub ("a".data ++ ['\n'])), none, none,
        none, none⟩] :=
  ⟨⟨by decide, by decide, by decide⟩,
    c2_amended "a".data (by decide) (by decide) (by decide)⟩

/-! ## Claim C1: the markdown-link example input -/

/-- C1 counterexample: on the claim's input the parser does return three
segments, but their text contents are `"See [docs]("` and `"now<br/>"` rather
than `"See "` and `" now"`, and the link's url carries the trailing closing
parenthesis; so the claim as stated is false. -/
theorem c1_counterexample :
    parseMessageContent c1Input = some c1Actual ∧
    c1Actual.map (fun p => p.content) ≠
      ["See ".data, c1Url, " now".data] ∧
    c1Actual.map (fun p => p.url) ≠ [none, some c1Url, none] :=
  ⟨by decide, by decide, by decide⟩

/-- C1 amended: the input yields three segments in order: a text segment
`"See [docs]("`, a link segment whose url is the URL together with the
closing parenthesis and whose display text is its first 47 characters
followed by `"..."`, and a text segment `"now<br/>"` (the trailing text is
trimmed and the buffer's final newline becomes `<br/>`). -/
theorem c1_amended :
    parseMessageContent c1Input = some c1Actual ∧
    c1Actual.map (fun p => p.linkText) =
      [none, some ((c1Url ++ ")".data).take 47 ++ "...".data), none] :=
  ⟨by decide, by decide⟩

/-! ## Claim C8: idempotence of the segmenter -/

/-- C8 counterexample: parsing `"a http://\nx b"` yields one text segment
(no URL is matched, as the scheme is followed by a newline), its content
contains no N/A line to drop, and re-running the segmenter on the
reconstructed text yields three segments (the `<br/>` now glues non-space
characters onto `http://`, so the bare-URL scanner fires): three segments is
more than the single segment a second parse of the sentinel-stripped original
produces, so the claim is false. -/
theorem c8_counterexample :
    parseMessageContent c8Input =
      some [⟨PartType.text, c8Content, none, none, none, none⟩] ∧
    joinNl ((splitNl c8Input).filter (fun l => !isNALine l)) = c8Input ∧
    reconstructSegs [⟨PartType.text, c8Content, none, none, none, none⟩] =
      c8Content ∧
    (parseMessageContent c8Content).map List.length = some 3 ∧
    ¬ (3 : Nat) ≤ 1 :=
  ⟨by decide, by decide, by decide, by decide, by decide⟩

/-! ## Decomposition of the emphasis-regex searches -/

theorem mem_of_dropWhile (p : Char → Bool) (l : List Char) (x : Char)
    (h : x ∈ l.dropWhile p) : x ∈ l := by
  rw [← List.takeWhile_append_dropWhile p l]
  exact List.mem_append_right _ h

theorem jsTrim_mem (cs : List Char) (x : Char) (h : x ∈ jsTrim cs) : x ∈ cs := by
  unfold jsTrim at h
  rw [List.mem_reverse] at h
  have h1 := mem_of_dropWhile _ _ _ h
  rw [List.mem_reverse] at h1
  exact mem_of_dropWhile _ _ _ h1

theorem findClose2_decomp : ∀ cs cap rest, findClose2 cs = some (cap, rest) →
    cs = cap ++ '*' :: '*' :: rest := by
  intro cs
  induction cs with
  | nil => intro cap rest h; exact absurd h (by simp [findClose2])
  | cons c1 cs ih =>
    intro cap rest h
    cases cs with
    | nil => exact absurd h (by simp [findClose2])
    | cons c2 rest2 =>
      rw [show findClose2 (c1 :: c2 :: rest2) =
          (if c1 = '*' ∧ c2 = '*' then some ([], rest2)
           else if isLineTerm c1 then none
           else (findClose2 (c2 :: rest2)).map (fun x => (c1 :: x.1, x.2))) from rfl] at h
      by_cases hstar : c1 = '*' ∧ c2 = '*'
      · rw [if_pos hstar] at h
        obtain ⟨h1, h2⟩ : [] = cap ∧ rest2 = rest := by simpa using h
        rw [← h1, ← h2, hstar.1, hstar.2]
        rfl
      · rw [if_neg hstar] at h
        by_cases hlt : isLineTerm c1 = true
        · rw [if_pos hlt] at h
          exact absurd h (by simp)
        · rw [if_neg hlt] at h
          rcases hfc : findClose2 (c2 :: rest2) with _ | ⟨cap', rest'⟩
          · rw [hfc] at h
            exact absurd h (by simp)
          · rw [hfc, Option.map_some'] at h
            obtain ⟨h1, h2⟩ : c1 :: cap' = cap ∧ rest' = rest := by simpa using h
            rw [← h1, ← h2, List.cons_append, ← ih cap' rest' hfc]

theorem findBB_decomp : ∀ cs b cap a, findBB cs = some (b, cap, a) →
    cs = b ++ '*' :: '*' :: (cap ++ '*' :: '*' :: a) := by
  intro cs
  induction cs with
  | nil => intro b cap a h; exact absurd h (by simp [findBB])
  | cons c cs ih =>
    intro b cap a h
    unfold findBB at h
    rcases hb : bbAt (c :: cs) with _ | ⟨cap0, rest0⟩
    · rw [hb] at h
      rcases hfb : findBB cs with _ | ⟨b', cap', a'⟩
      · rw [hfb] at h
        exact absurd h (by simp)
      · rw [hfb, Option.map_some'] at h
        obtain ⟨h1, h2, h3⟩ : c :: b' = b ∧ cap' = cap ∧ a' = a := by simpa using h
        rw [← h1, ← h2, ← h3, List.cons_append, ← ih b' cap' a' hfb]
    · rw [hb] at h
      obtain ⟨h1, h2, h3⟩ : ([] : List Char) = b ∧ cap0 = cap ∧ rest0 = a := by simpa using h
      rw [← h1, ← h2, ← h3]
      cases cs with
      | nil => exact absurd hb (by simp [bbAt])
      | cons c2 cs2 =>
        rw [show bbAt (c :: c2 :: cs2) =
            (if c = '*' ∧ c2 = '*' then findClose2 cs2 else none) from rfl] at hb
        by_cases hstar : c = '*' ∧ c2 = '*'
        · rw [if_pos hstar] at hb
          have hd := findClose2_decomp cs2 cap0 rest0 hb
          simp [hstar.1, hstar.2, hd]
        · rw [if_neg hstar] at hb
          exact absurd hb (by simp)

theorem findClose1_decomp : ∀ cs cap rest, findClose1 cs = some (cap, rest) →
    cs = cap ++ '*' :: rest := by
  intro cs
  induction cs with
  | nil => intro cap rest h; exact absurd h (by simp [findClose1])
  | cons c1 cs ih =>
    intro cap rest h
    rw [show findClose1 (c1 :: cs) =
        (if c1 = '*' then some ([], cs)
         else if isLineTerm c1 then none
         else (findClose1 cs).map (fun x => (c1 :: x.1, x.2))) from rfl] at h
    by_cases hstar : c1 = '*'
    · rw [if_pos hstar] at h
      obtain ⟨h1, h2⟩ : [] = cap ∧ cs = rest := by simpa using h
      rw [← h1, ← h2, hstar]
      rfl
    · rw [if_neg hstar] at h
      by_cases hlt : isLineTerm c1 = true
      · rw [if_pos hlt] at h
        exact absurd h (by simp)
      · rw [if_neg hlt] at h
        rcases hfc : findClose1 cs with _ | ⟨cap', rest'⟩
        · rw [hfc] at h
          exact absurd h (by simp)
        · rw [hfc, Option.map_some'] at h
          obtain ⟨h1, h2⟩ : c1 :: cap' = cap ∧ rest' = rest := by simpa using h
          rw [← h1, ← h2, List.cons_append, ← ih cap' rest' hfc]

theorem findI_decomp : ∀ cs b cap a, findI cs = some (b, cap, a) →
    cs = b ++ '*' :: (cap ++ '*' :: a) := by
  intro cs
  induction cs with
  | nil => intro b cap a h; exact absurd h (by simp [findI])
  | cons c cs ih =>
    intro b cap a h
    unfold findI at h
    rcases hb : iAt (c :: cs) with _ | ⟨cap0, rest0⟩
    · rw [hb] at h
      rcases hfb : findI cs with _ | ⟨b', cap', a'⟩
      · rw [hfb] at h
        exact absurd h (by simp)
      · rw [hfb, Option.map_some'] at h
        obtain ⟨h1, h2, h3⟩ : c :: b' = b ∧ cap' = cap ∧ a' = a := by simpa using h
        rw [← h1, ← h2, ← h3, List.cons_append, ← ih b' cap' a' hfb]
    · rw [hb] at h
      obtain ⟨h1, h2, h3⟩ : ([] : List Char) = b ∧ cap0 = cap ∧ rest0 = a := by simpa using h
      rw [← h1, ← h2, ← h3]
      rw [show iAt (c :: cs) = (if c = '*' then findClose1 cs else none) from rfl] at hb
      by_cases hstar : c = '*'
      · rw [if_pos hstar] at hb
        have hd := findClose1_decomp cs cap0 rest0 hb
        simp [hstar, hd]
      · rw [if_neg hstar] at hb
        exact absurd hb (by simp)

/-! ## Colon-free inputs stay colon-free through the substitutions -/

theorem replBBF_no_colon (fuel : Nat) :
    ∀ cs, ':' ∉ cs → ':' ∉ replBBF fuel cs := by
  induction fuel with
  | zero => intro cs h; exact h
  | succ f ih =>
    intro cs h
    unfold replBBF
    rcases hf : findBB cs with _ | ⟨b, cap, a⟩
    · exact h
    · have hd := findBB_decomp cs b cap a hf
      have hb : ':' ∉ b := fun hx => h (hd ▸ List.mem_append_left _ hx)
      have hcap : ':' ∉ cap := fun hx =>
        h (hd ▸ List.mem_append_right _ (List.mem_cons_of_mem _
          (List.mem_cons_of_mem _ (List.mem_append_left _ hx))))
      have ha : ':' ∉ a := fun hx =>
        h (hd ▸ List.mem_append_right _ (List.mem_cons_of_mem _
          (List.mem_cons_of_mem _ (List.mem_append_right _
            (List.mem_cons_of_mem _ (List.mem_cons_of_mem _ hx))))))
      intro hmem
      simp only [List.mem_append] at hmem
      rcases hmem with (((h1 | h2) | h3) | h4) | h5
      · exact hb h1
      · exact absurd h2 (by decide)
      · exact hcap h3
      · exact absurd h4 (by decide)
      · exact ih a ha h5

theorem replIF_no_colon (fuel : Nat) :
    ∀ cs, ':' ∉ cs → ':' ∉ replIF fuel cs := by
  induction fuel with
  | zero => intro cs h; exact h
  | succ f ih =>
    intro cs h
    unfold replIF
    rcases hf : findI cs with _ | ⟨b, cap, a⟩
    · exact h
    · have hd := findI_decomp cs b cap a hf
      have hb : ':' ∉ b := fun hx => h (hd ▸ List.mem_append_left _ hx)
      have hcap : ':' ∉ cap := fun hx =>
        h (hd ▸ List.mem_append_right _ (List.mem_cons_of_mem _
          (List.mem_append_left _ hx)))
      have ha : ':' ∉ a := fun hx =>
        h (hd ▸ List.mem_append_right _ (List.mem_cons_of_mem _
          (List.mem_append_right _ (List.mem_cons_of_mem _ hx))))
      intro hmem
      simp only [List.mem_append] at hmem
      rcases hmem with (((h1 | h2) | h3) | h4) | h5
      · exact hb h1
      · exact absurd h2 (by decide)
      · exact hcap h3
      · exact absurd h4 (by decide)
      · exact ih a ha h5

theorem replNl_no_colon : ∀ cs, ':' ∉ cs → ':' ∉ replNl cs := by
  intro cs
  induction cs with
  | nil => intro h; exact h
  | cons c cs ih =>
    intro h hmem
    have hc : ':' ∉ cs := fun hx => h (List.mem_cons_of_mem c hx)
    unfold replNl at hmem
    by_cases hnl : c = '\n'
    · rw [if_pos hnl] at hmem
      rcases List.mem_append.mp hmem with h1 | h2
      · exact absurd h1 (by decide)
      · exact ih hc h2
    · rw [if_neg hnl] at hmem
      rcases List.mem_cons.mp hmem with h1 | h2
      · exact h (h1 ▸ List.mem_cons_self c cs)
      · exact ih hc h2

theorem emphSub_no_colon (cs : List Char) (h : ':' ∉ cs) : ':' ∉ emphSub cs := by
  unfold emphSub
  exact replNl_no_colon _ (replIF_no_colon _ _ (replBBF_no_colon _ _ h))

/-! ## A colon-free input makes neither a sentinel line nor a URL -/

theorem ciEq_colon (c : Char) (h : ciEq ':' c = true) : c = ':' := by
  unfold ciEq at h
  simp only [Bool.or_eq_true, Bool.and_eq_true, decide_eq_true_eq] at h
  rcases h with h | h
  · exact h.symm
  · exfalso
    have h1 := h.1.1
    have : (':' : Char).toNat = 58 := by decide
    omega

theorem dropPrefixCI_colon : ∀ p cs v, dropPrefixCI p cs = some v → ':' ∈ p → ':' ∈ cs := by
  intro p
  induction p with
  | nil => intro cs v _ hmem; exact absurd hmem (by simp)
  | cons q ps ih =>
    intro cs v h hmem
    cases cs with
    | nil => exact absurd h (by simp [dropPrefixCI])
    | cons c cs' =>
      rw [show dropPrefixCI (q :: ps) (c :: cs') =
          (if ciEq q c then dropPrefixCI ps cs' else none) from rfl] at h
      by_cases hq : ciEq q c = true
      · rw [if_pos hq] at h
        rcases List.mem_cons.mp hmem with h1 | h2
        · have : c = ':' := ciEq_colon c (h1 ▸ hq)
          exact this ▸ List.mem_cons_self c cs'
        · exact List.mem_cons_of_mem c (ih cs' v h h2)
      · rw [if_neg hq] at h
        exact absurd h (by simp)

theorem noColon_image_none (l : List Char) (h : ':' ∉ l) : imageUrlMatch l = none := by
  unfold imageUrlMatch matchSentinel
  rcases hd : dropPrefixCI "image url: ".data l with _ | v
  · rfl
  · exact absurd (dropPrefixCI_colon _ l v hd (by decide)) h

theorem noColon_video_none (l : List Char) (h : ':' ∉ l) : videoUrlMatch l = none := by
  unfold videoUrlMatch matchSentinel
  rcases hd : dropPrefixCI "video url: ".data l with _ | v
  · rfl
  · exact absurd (dropPrefixCI_colon _ l v hd (by decide)) h

theorem dropPrefixEx_decomp : ∀ p cs r, dropPrefixEx p cs = some r → cs = p ++ r := by
  intro p
  induction p with
  | nil =>
    intro cs r h
    have : cs = r := Option.some.inj h
    simp [this]
  | cons q ps ih =>
    intro cs r h
    cases cs with
    | nil => exact absurd h (by simp [dropPrefixEx])
    | cons c cs' =>
      rw [dropPrefixEx_cons2] at h
      by_cases hq : c = q
      · rw [if_pos hq] at h
        rw [List.cons_append, hq, ← ih cs' r h]
      · rw [if_neg hq] at h
        exact absurd h (by simp)

theorem noColon_urlAt (cs : List Char) (h : ':' ∉ cs) : urlAt cs = none := by
  unfold urlAt
  rcases h8 : dropPrefixEx "https://".data cs with _ | r8
  · rcases h7 : dropPrefixEx "http://".data cs with _ | r7
    · rfl
    · exfalso
      have := dropPrefixEx_decomp _ cs r7 h7
      exact h (this ▸ List.mem_append_left _ (by decide))
  · exfalso
    have := dropPrefixEx_decomp _ cs r8 h8
    exact h (this ▸ List.mem_append_left _ (by decide))

theorem noColon_findUrl : ∀ cs, ':' ∉ cs → findUrl cs = none := by
  intro cs
  induction cs with
  | nil => intro _; rfl
  | cons c cs' ih =>
    intro h
    unfold findUrl
    rw [noColon_urlAt (c :: cs') h, ih (fun hx => h (List.mem_cons_of_mem c hx))]
    rfl

theorem splitNl_subset (cs : List Char) :
    ∀ l ∈ splitNl cs, ∀ x ∈ l, x ∈ cs := by
  induction cs with
  | nil =>
    intro l hl x hx
    simp [splitNl] at hl
    rw [hl] at hx
    exact absurd hx (by simp)
  | cons c rest ih =>
    intro l hl x hx
    rw [splitNl_cons] at hl
    by_cases hc : c = '\n'
    · rw [if_pos hc] at hl
      rcases List.mem_cons.mp hl with h1 | h1
      · rw [h1] at hx
        exact absurd hx (by simp)
      · exact List.mem_cons_of_mem c (ih l h1 x hx)
    · rw [if_neg hc] at hl
      rcases hsp : splitNl rest with _ | ⟨l0, ls⟩
      · exact absurd hsp (splitNl_ne_nil rest)
      · rw [hsp] at hl
        rcases List.mem_cons.mp hl with h1 | h1
        · rw [h1] at hx
          rcases List.mem_cons.mp hx with h2 | h2
          · exact h2 ▸ List.mem_cons_self c rest
          · exact List.mem_cons_of_mem c
              (ih l0 (hsp ▸ List.mem_cons_self l0 ls) x h2)
        · exact List.mem_cons_of_mem c
            (ih l (hsp ▸ List.mem_cons_of_mem l0 h1) x hx)

theorem parse_no_colon (t : List Char) (h : ':' ∉ t) :
    parseMessageContent t =
      some (if t.all isJsWs = true then []
        else [⟨PartType.text, jsTrim (emphSub (t ++ ['\n'])), none, none, none, none⟩]) := by
  have hsent : ∀ l ∈ splitNl t, imageUrlMatch l = none ∧ videoUrlMatch l = none := by
    intro l hl
    have hcl : ':' ∉ l := fun hx => h (splitNl_subset t l hl ':' hx)
    exact ⟨noColon_image_none l hcl, noColon_video_none l hcl⟩
  have hbuf : parseLines ([], []) (splitNl t) = some ([], t ++ ['\n']) := by
    rw [parseLines_all_text (splitNl t) [] [] hsent, splitNl_flatten]
    rfl
  by_cases hws : t.all isJsWs = true
  · have hT : jsTrim (t ++ ['\n']) = [] := by
      rw [jsTrim_eq_nil_iff, List.all_append]
      exact Bool.and_eq_true_iff.mpr ⟨hws, by decide⟩
    unfold parseMessageContent
    rw [hbuf]
    simp only [Option.bind_eq_bind, Option.some_bind]
    have hfl : flushState ([], t ++ ['\n']) = some ([], t ++ ['\n']) := by
      unfold flushState
      rw [if_pos hT]
    rw [hfl]
    simp only [Option.some_bind, if_pos hws]
    rfl
  · have hT : jsTrim (t ++ ['\n']) ≠ [] := by
      intro hcon
      rw [jsTrim_eq_nil_iff, List.all_append] at hcon
      exact hws (Bool.and_eq_true_iff.mp hcon).1
    have hc2 : ':' ∉ t ++ ['\n'] := by
      intro hx
      rcases List.mem_append.mp hx with h1 | h2
      · exact h h1
      · exact absurd h2 (by decide)
    have hurl2 : findUrl (t ++ ['\n']) = none := noColon_findUrl _ hc2
    have hP : processPlainTextWithUrls (t ++ ['\n']) =
        [⟨PartType.text, jsTrim (emphSub (t ++ ['\n'])), none, none, none, none⟩] := by
      rw [ppwu_no_url _ hurl2]
      unfold textSegs
      rw [if_neg hT]
    have hcne : jsTrim (jsTrim (emphSub (t ++ ['\n']))) ≠ [] := by
      intro hcon
      have h1 := (jsTrim_eq_nil_iff _).mp hcon
      have h2 := jsTrim_all_of_all _ h1
      have h3 := emphSub_all_ws _ h2
      exact hT ((jsTrim_eq_nil_iff _).mpr h3)
    have hfl : flushState ([], t ++ ['\n']) =
        some ([] ++ processPlainTextWithUrls (t ++ ['\n']), []) := by
      unfold flushState
      rw [if_neg hT, processTextWithLinks_eq]
      rfl
    unfold parseMessageContent
    rw [hbuf]
    simp only [Option.bind_eq_bind, Option.some_bind]
    rw [hfl]
    simp only [Option.some_bind, List.nil_append, hP]
    have hbool : (jsTrim (jsTrim (emphSub (t ++ ['\n'])))).isEmpty = false := by
      rcases hEm : (jsTrim (jsTrim (emphSub (t ++ ['\n'])))).isEmpty with _ | _
      · rfl
      · exact absurd (List.isEmpty_iff.mp hEm) hcne
    rw [if_neg hws]
    simp [List.filter_cons, hbool]

/-- C8 amended: the idempotence claim holds on the colon-free fragment: for
every input containing no colon character (so it can contain neither a
sentinel line nor an http(s) URL, and its segments' contents cannot acquire
any), re-running the segmenter on the reconstructed text of its output
produces no more segments than the original parse (both produce at most one
text segment). In general the claim is false (see the counterexample). -/
theorem c8_amended (t : List Char) (hcolon : ':' ∉ t) (l l2 : List ParsedContent)
    (hl : parseMessageContent t = some l)
    (hl2 : parseMessageContent (reconstructSegs l) = some l2) :
    l2.length ≤ l.length := by
  have h1 := parse_no_colon t hcolon
  rw [hl] at h1
  have hleq := Option.some.inj h1
  by_cases hws : t.all isJsWs = true
  · rw [if_pos hws] at hleq
    rw [hleq] at hl2
    have hre : reconstructSegs ([] : List ParsedContent) = [] := rfl
    rw [hre] at hl2
    have hp : parseMessageContent ([] : List Char) = some [] := by decide
    rw [hp] at hl2
    have hl2e : ([] : List ParsedContent) = l2 := Option.some.inj hl2
    rw [hleq, ← hl2e]
  · rw [if_neg hws] at hleq
    have hc2 : ':' ∉ t ++ ['\n'] := by
      intro hy
      rcases List.mem_append.mp hy with hy1 | hy2
      · exact hcolon hy1
      · exact absurd hy2 (by decide)
    have hcc : ':' ∉ jsTrim (emphSub (t ++ ['\n'])) := by
      intro hx
      exact emphSub_no_colon _ hc2 (jsTrim_mem _ _ hx)
    have hrec : reconstructSegs l = jsTrim (emphSub (t ++ ['\n'])) := by
      rw [hleq]
      rfl
    rw [hrec] at hl2
    have h3 := parse_no_colon _ hcc
    rw [hl2] at h3
    have hleq2 := Option.some.inj h3
    rw [hleq, hleq2]
    by_cases hws2 : (jsTrim (emphSub (t ++ ['\n']))).all isJsWs = true
    · rw [if_pos hws2]
      simp
    · rw [if_neg hws2]
      simp

theorem c8_amended_witness :
    (':' ∉ "hello".data ∧
     parseMessageContent "hello".data =
       some [⟨PartType.text, "hello<br/>".data, none, none, none, none⟩] ∧
     parseMessageContent (reconstructSegs
         [⟨PartType.text, "hello<br/>".data, none, none, none, none⟩]) =
       some [⟨PartType.text, "hello<br/><br/>".data, none, none, none, none⟩]) ∧
    ([⟨PartType.text, "hello<br/><br/>".data, none, none, none, none⟩] :
        List ParsedContent).length ≤
      ([⟨PartType.text, "hello<br/>".data, none, none, none, none⟩] :
        List ParsedContent).length :=
  ⟨⟨by decide, by decide, by decide⟩,
    c8_amended "hello".data (by decide)
      [⟨PartType.text, "hello<br/>".data, none, none, none, none⟩]
      [⟨PartType.text, "hello<br/><br/>".data, none, none, none, none⟩]
      (by decide) (by decide)⟩
